import Mathlib

/-!
# Verification of the OAP native sort kernel (`sort_kernel.cc`)

A shallow embedding of the sort-kernel component of the OAP columnar engine:
the kernel factory, the JIT signature derivation, the build/load critical
section, the generated sorter's accumulate (`Evaluate`) and partition
(`Finish`) phases, the generated composite comparator, the sort-algorithm
selection, and the streaming result iterators of both kernel variants.

Columns are modelled as lists of optional integers (`none` is a null cell,
`some v` a value cell as read by `GetView`); a batch is the list of its
columns in schema order.  Machine indices and counters are modelled as `Nat`
(all counters in the source only grow from zero and never overflow in the
modelled scenarios).  Fallible entry points return `Except String`.
-/

namespace SortKernel

/-- One cell of a column: `none` models an Arrow null slot. -/
abbrev Cell := Option Int

/-- A column is the list of its cells; `IsNull i` is `cells[i] = none`. -/
abbrev Column := List Cell

/-- A batch (`ArrayList in`) is its columns in output-schema order. -/
abbrev Batch := List Column

/-- The `null_count()` of a column: the number of `none` cells. -/
def nullCount (col : Column) : Nat := col.countP (fun c => c.isNone)

/-- `ArrayItemIndex`: identifies one row as (batch number, row inside batch). -/
structure ArrayItemIndex where
  array_id : Nat
  id : Nat
deriving DecidableEq, Repr

/-! ## Kernel factory (`SortArraysToIndicesKernel` constructor) -/

/-- The two sorter implementations the factory can instantiate. -/
inductive KernelVariant where
  | inplace
  | indexed
deriving DecidableEq, Repr

/-- The factory dispatch of `SortArraysToIndicesKernel::SortArraysToIndicesKernel`:
`key_field_list.size() == 1 && result_schema->num_fields() == 1` selects
`SortInplaceKernel`, anything else the generic `Impl`. -/
def selectKernel (numKeyFields numSchemaFields : Nat) : KernelVariant :=
  if numKeyFields = 1 ∧ numSchemaFields = 1 then KernelVariant.inplace
  else KernelVariant.indexed

/-! ## Sort-algorithm selection (`GetSortFunction`) -/

/-- Which sort routine the generated `Finish` calls on the working array. -/
inductive SortAlgo where
  | skaSort
  | stdSortComp
deriving DecidableEq, Repr

/-- A sort invocation: the routine plus the half-open index range
`[lo, hi)` of the working array it is applied to. -/
structure SortCall where
  algo : SortAlgo
  lo : Nat
  hi : Nat
deriving DecidableEq, Repr

/-- Embeds `SortArraysToIndicesKernel::Impl::GetSortFunction`: ascending with a
single key emits `ska_sort`, every other configuration emits `std::sort`
with the composite comparator; the range is `[nulls_total_, items_total_)`
for nulls-first and `[0, items_total_ - nulls_total_)` for nulls-last. -/
def getSortFunction (asc nullsFirst : Bool) (numKeys nullsTotal itemsTotal : Nat) :
    SortCall :=
  if asc then
    if numKeys = 1 then
      if nullsFirst then ⟨SortAlgo.skaSort, nullsTotal, itemsTotal⟩
      else ⟨SortAlgo.skaSort, 0, itemsTotal - nullsTotal⟩
    else
      if nullsFirst then ⟨SortAlgo.stdSortComp, nullsTotal, itemsTotal⟩
      else ⟨SortAlgo.stdSortComp, 0, itemsTotal - nullsTotal⟩
  else
    if nullsFirst then ⟨SortAlgo.stdSortComp, nullsTotal, itemsTotal⟩
    else ⟨SortAlgo.stdSortComp, 0, itemsTotal - nullsTotal⟩

/-- Embeds `SortInplaceKernel::GetSortFunction`: the in-place kernel (always a
single key) emits `ska_sort` exactly when ascending, over the same
non-null range. -/
def getSortFunctionInplace (asc nullsFirst : Bool) (nullsTotal itemsTotal : Nat) :
    SortCall :=
  if asc then
    if nullsFirst then ⟨SortAlgo.skaSort, nullsTotal, itemsTotal⟩
    else ⟨SortAlgo.skaSort, 0, itemsTotal - nullsTotal⟩
  else
    if nullsFirst then ⟨SortAlgo.stdSortComp, nullsTotal, itemsTotal⟩
    else ⟨SortAlgo.stdSortComp, 0, itemsTotal - nullsTotal⟩

/-- The spec's own words on algorithm selection ("a single ascending numeric
primary key with no additional keys uses a linear-time radix sort; every
other configuration (descending, multiple keys, non-numeric types) uses a
general comparison sort"): selection additionally depends on whether the key
type is numeric.  Kept for comparison with `getSortFunction`, which has no
type input at all. -/
def specSortAlgo (asc : Bool) (numKeys : Nat) (numericKey : Bool) : SortAlgo :=
  if asc ∧ numKeys = 1 ∧ numericKey then SortAlgo.skaSort else SortAlgo.stdSortComp

/-! ## Result-iterator cursor arithmetic (generated `HasNext` / `Next`) -/

/-- Generated `HasNext`: `if (offset_ >= total_length_) return false; return true`. -/
def hasNextIter (totalLength offset : Nat) : Bool :=
  if offset ≥ totalLength then false else true

/-- The row count of one generated `Next` call:
`(total_length_ - offset_) > batch_size ? batch_size : (total_length_ - offset_)`. -/
def nextLength (batchSize totalLength offset : Nat) : Nat :=
  if totalLength - offset > batchSize then batchSize else totalLength - offset

/-- One generated `Next` call of the indexed iterator advances the cursor by
exactly `nextLength` (`offset_ += length`). -/
def nextOffset (batchSize totalLength offset : Nat) : Nat :=
  offset + nextLength batchSize totalLength offset

/-- The per-iteration update of the loop counter `count` inside the in-place
iterator's `Next`:
```
while (count < length) {
  if ((offset_ + count) < nulls_total_) { builder_0_->AppendNull(); }
  else { builder_0_->Append(indices_begin_[offset_ + count++]); }
}
```
`count` is incremented only in the `else` branch; the `AppendNull` branch
leaves it unchanged. -/
def inplaceNextCountStep (nullsTotal offset length count : Nat) : Nat :=
  if count < length then
    if offset + count < nullsTotal then count else count + 1
  else count

/-! ## Accumulation state and `Evaluate` (generated `TypedSorterImpl`, indexed) -/

/-- The generated indexed sorter's private state: the per-column cached
arrays `cached_i_`, the first input column of every batch (`first_`), and
the running counters.  `cached` holds, for each output-schema column, its
list of per-batch arrays. -/
structure SorterState where
  numBatches : Nat
  itemsTotal : Nat
  nullsTotal : Nat
  first : List Column
  cached : List (List Column)
deriving DecidableEq, Repr

/-- The sorter state at construction: all counters zero, `numCols` empty
cached vectors. -/
def initState (numCols : Nat) : SorterState :=
  ⟨0, 0, 0, [], List.replicate numCols []⟩

/-- Generated `Evaluate(in)`: bumps `num_batches_`, adds `in[0]->length()`
and `in[0]->null_count()` to the totals, retains `in[0]` in `first_` and
appends `in[i]` to each `cached_i_`.  No validation of any kind is
performed and the call unconditionally returns OK. -/
def evaluate (s : SorterState) (b : Batch) : SorterState :=
  { numBatches := s.numBatches + 1
    itemsTotal := s.itemsTotal + b.headI.length
    nullsTotal := s.nullsTotal + nullCount b.headI
    first := s.first ++ [b.headI]
    cached := List.zipWith (fun cv c => cv ++ [c]) s.cached b }

/-- The `arrow::Status` returned by the generated `Evaluate`: the body ends
in `return arrow::Status::OK()` with no fallible step before it. -/
def evaluateStatus (s : SorterState) (b : Batch) : Except String SorterState :=
  Except.ok (evaluate s b)

/-- The claim's (spec §7, error kind 5) version of `Evaluate`: a row-count
mismatch between the parallel arrays of one batch is detected and surfaced
as an immediate error, leaving the state untouched.  Kept for comparison
with `evaluateStatus`, which performs no such check. -/
def evaluateStatusSpec (s : SorterState) (b : Batch) : Except String SorterState :=
  if b.all (fun col => col.length = b.headI.length) then Except.ok (evaluate s b)
  else Except.error "row-count mismatch between parallel input arrays"

/-- Folding `Evaluate` over a sequence of input batches. -/
def evalAll (bs : List Batch) (s : SorterState) : SorterState :=
  bs.foldl evaluate s

/-! ## The partition pass of the generated `Finish` (indexed kernel)

`Finish` allocates a buffer of `items_total_` `ArrayItemIndex` slots and
walks the accumulated batches in encounter order; each row is written
either through `GetPreSortValid()`'s code (row not null on `first_`) or
through `GetPreSortNull()`'s code.  The buffer is modelled as a list of
`Option ArrayItemIndex` slots, `none` being a not-yet-written slot. -/

/-- Target slot of a non-null row, from `GetPreSortValid()`:
`indices_begin + nulls_total_ + indices_i` when nulls-first, else
`indices_begin + indices_i`. -/
def preSortValidPos (nullsFirst : Bool) (nullsTotal indicesI : Nat) : Nat :=
  if nullsFirst then nullsTotal + indicesI else indicesI

/-- Target slot of a null row, from `GetPreSortNull()`:
`indices_begin + indices_null` when nulls-first, else
`indices_end - nulls_total_ + indices_null`. -/
def preSortNullPos (nullsFirst : Bool) (nullsTotal itemsTotal indicesNull : Nat) :
    Nat :=
  if nullsFirst then indicesNull else itemsTotal - nullsTotal + indicesNull

/-- The mutable state of the partition loop: the indices buffer and the two
write cursors `indices_i` and `indices_null`. -/
structure FinishState where
  buf : List (Option ArrayItemIndex)
  indicesI : Nat
  indicesNull : Nat
deriving DecidableEq, Repr

/-- One iteration of the row loop in the generated `Finish`: a non-null
cell runs `GetPreSortValid()`'s writes then `indices_i++`; a null cell runs
`GetPreSortNull()`'s writes then `indices_null++`. -/
def partitionRow (nullsFirst : Bool) (nullsTotal itemsTotal arrayId : Nat)
    (st : FinishState) (i : Nat) (cell : Cell) : FinishState :=
  if cell.isSome then
    { buf := st.buf.set (preSortValidPos nullsFirst nullsTotal st.indicesI)
        (some ⟨arrayId, i⟩)
      indicesI := st.indicesI + 1
      indicesNull := st.indicesNull }
  else
    { buf := st.buf.set (preSortNullPos nullsFirst nullsTotal itemsTotal st.indicesNull)
        (some ⟨arrayId, i⟩)
      indicesI := st.indicesI
      indicesNull := st.indicesNull + 1 }

/-- The inner row loop `for (i = 0; i < first_[array_id]->length(); i++)`,
with `i` the index of the head of `cells`. -/
def partitionRows (nullsFirst : Bool) (nullsTotal itemsTotal arrayId : Nat) :
    Nat → List Cell → FinishState → FinishState
  | _, [], st => st
  | i, c :: rest, st =>
    partitionRows nullsFirst nullsTotal itemsTotal arrayId (i + 1) rest
      (partitionRow nullsFirst nullsTotal itemsTotal arrayId st i c)

/-- The outer batch loop `for (array_id = 0; array_id < num_batches_; ...)`,
with `arrayId` the batch number of the head of `cols`. -/
def partitionBatches (nullsFirst : Bool) (nullsTotal itemsTotal : Nat) :
    Nat → List Column → FinishState → FinishState
  | _, [], st => st
  | arrayId, col :: rest, st =>
    partitionBatches nullsFirst nullsTotal itemsTotal (arrayId + 1) rest
      (partitionRows nullsFirst nullsTotal itemsTotal arrayId 0 col st)

/-- The indices buffer produced by the partition phase of the generated
`Finish`, run on the accumulated state: buffer of `items_total_` slots,
both cursors zero, batches walked in encounter order. -/
def finishBuf (nullsFirst : Bool) (s : SorterState) : List (Option ArrayItemIndex) :=
  (partitionBatches nullsFirst s.nullsTotal s.itemsTotal 0 s.first
    ⟨List.replicate s.itemsTotal none, 0, 0⟩).buf

/-! ### Encounter-order index lists (the partition's intended content) -/

/-- Indices of the non-null cells of one column, in encounter order. -/
def validIdxRows (arrayId : Nat) : Nat → List Cell → List ArrayItemIndex
  | _, [] => []
  | i, c :: rest =>
    (if c.isSome then [⟨arrayId, i⟩] else []) ++ validIdxRows arrayId (i + 1) rest

/-- Indices of the null cells of one column, in encounter order. -/
def nullIdxRows (arrayId : Nat) : Nat → List Cell → List ArrayItemIndex
  | _, [] => []
  | i, c :: rest =>
    (if c.isSome then [] else [⟨arrayId, i⟩]) ++ nullIdxRows arrayId (i + 1) rest

/-- Indices of all non-null rows across the batches, in encounter order. -/
def validIdxCols : Nat → List Column → List ArrayItemIndex
  | _, [] => []
  | arrayId, col :: rest => validIdxRows arrayId 0 col ++ validIdxCols (arrayId + 1) rest

/-- Indices of all null rows across the batches, in encounter order. -/
def nullIdxCols : Nat → List Column → List ArrayItemIndex
  | _, [] => []
  | arrayId, col :: rest => nullIdxRows arrayId 0 col ++ nullIdxCols (arrayId + 1) rest

/-- Total row count over the accumulated first columns. -/
def totalItems (cols : List Column) : Nat := (cols.map List.length).sum

/-- Total null count over the accumulated first columns. -/
def totalNulls (cols : List Column) : Nat := (cols.map nullCount).sum

/-! ## In-place kernel (`SortInplaceKernel`, generated `TypedSorterImpl`) -/

/-- The generated in-place sorter's state: one cached array vector
(`cached_0_`) and the running counters. -/
structure InplaceState where
  numBatches : Nat
  itemsTotal : Nat
  nullsTotal : Nat
  cached0 : List Column
deriving DecidableEq, Repr

/-- The in-place sorter's state at construction. -/
def inplaceInit : InplaceState := ⟨0, 0, 0, []⟩

/-- Generated in-place `Evaluate(in)`: counters from `in[0]`, which is also
retained in `cached_0_`; unconditionally OK. -/
def inplaceEvaluate (s : InplaceState) (b : Batch) : InplaceState :=
  { numBatches := s.numBatches + 1
    itemsTotal := s.itemsTotal + b.headI.length
    nullsTotal := s.nullsTotal + nullCount b.headI
    cached0 := s.cached0 ++ [b.headI] }

/-- Models `arrow::Concatenate` of the external Apache Arrow library:
concatenates an array vector into one array, failing on an empty vector
(`Invalid("Must pass at least one array")`). -/
def arrowConcatenate (arrays : List Column) : Except String Column :=
  match arrays with
  | [] => Except.error "Must pass at least one array"
  | _ => Except.ok arrays.flatten

/-- The control flow of the generated in-place `MakeResultIterator`: the
comparator is built, then `RETURN_NOT_OK(arrow::Concatenate(cached_0_, ...))`
propagates any Concatenate failure; on success a `SorterResultIterator`
is constructed from `(nulls_total_, items_total_)`.  The partition/sort of
the concatenated value buffer is not tracked here: no settled claim reads
the buffer contents, only the iterator bounds and the error path. -/
def inplaceMakeResultIterator (s : InplaceState) : Except String (Nat × Nat) :=
  match arrowConcatenate s.cached0 with
  | Except.error e => Except.error e
  | Except.ok _ => Except.ok (s.nullsTotal, s.itemsTotal)

/-! ## Composite comparator (`GetCompFunction` / `GetCompFunction_`) -/

/-- The strict comparison the generated comparator emits for one key:
`GetView(x) < GetView(y)` when ascending, `GetView(x) > GetView(y)` when
descending. -/
def strictOp (asc : Bool) (a b : Int) : Bool :=
  if asc then decide (a < b) else decide (b < a)

/-- The generated composite comparator, from `GetCompFunction_`: the key
values of a row are modelled as a map `Nat → Int` from key-column index to
the row's `GetView` value there.  For the last key the emitted code is the
bare strict comparison; for an earlier key it is
`if (x_k == y_k) { <comparator of remaining keys> } else { <strict comparison> }`.
An empty key list never reaches the generator (`GetCompFunction_` indexes
`sort_key_index_list[0]` unconditionally); the `[]` case is an arbitrary
total-function filler and every theorem assumes a non-empty key list. -/
def genComp (asc : Bool) : List Nat → (Nat → Int) → (Nat → Int) → Bool
  | [], _, _ => false
  | [k], x, y => strictOp asc (x k) (y k)
  | k :: k2 :: rest, x, y =>
    if x k = y k then genComp asc (k2 :: rest) x y else strictOp asc (x k) (y k)

/-! ## Signature derivation (`LoadJITFunction`) -/

/-- A sort build request as `LoadJITFunction` sees it: the ordering flags,
the key fields and the schema (each rendered by their `ToString()`,
modelled as character lists), plus the configured batch-size constant the
code generator embeds via `GetBatchSize()`. -/
structure SortSpec where
  nullsFirst : Bool
  asc : Bool
  keyFields : List (List Char)
  schemaStr : List Char
  batchSize : Nat
deriving DecidableEq, Repr

/-- The per-key marker of the descriptor.  The source writes
`"[sort_key_" << i << "]"` with `int i = 0;` declared before the loop and
never incremented, so every key gets the same marker `[sort_key_0]`. -/
def sortKeyMarker : List Char := "[sort_key_0]".toList

/-- The key section of the descriptor: one marker followed by the key
field's rendering, per key, in key-list order. -/
def keysDescriptor : List (List Char) → List Char
  | [] => []
  | f :: rest => sortKeyMarker ++ f ++ keysDescriptor rest

/-- The human-readable descriptor `func_args_ss` built by `LoadJITFunction`:
`"[Sorter]" << (nulls_first_ ? "nulls_first" : "nulls_last") << "|" <<
(asc_ ? "asc" : "desc")`, then the key section, then
`"[schema]" << result_schema->ToString()`.  The signature of the source is
`std::hex << std::hash<std::string>{}(descriptor)` — a fixed
implementation-defined pure function applied after this descriptor, so
equality of descriptors transfers to equality of signatures; inequality
statements are settled at the descriptor (pre-hash) level. -/
def buildDescriptor (s : SortSpec) : List Char :=
  "[Sorter]".toList
    ++ (if s.nullsFirst then "nulls_first".toList else "nulls_last".toList)
    ++ "|".toList
    ++ (if s.asc then "asc".toList else "desc".toList)
    ++ keysDescriptor s.keyFields
    ++ "[schema]".toList ++ s.schemaStr

/-! ## Build/load critical section (`LoadJITFunction` lock region) -/

/-- The outcome of `LoadJITFunction`'s critical section: whether the file
spin lock is still held when the call returns, the returned status, and
how many times `CompileCodes` was invoked. -/
structure JITOutcome where
  lockHeld : Bool
  result : Except String Unit
  compileCalls : Nat
deriving Repr

/-- The lock/build/load control flow of `LoadJITFunction`, with the
outcomes of the external steps (first `LoadLibrary`, `CompileCodes`, the
reloading `LoadLibrary`) given as oracle inputs.  `FileSpinLock()` is
acquired first; on a first-load success the lock is released and OK
returned; otherwise `RETURN_NOT_OK(CompileCodes(...))` and
`RETURN_NOT_OK(LoadLibrary(...))` early-return on failure — skipping
`FileSpinUnLock(file_lock)`, which only runs on the success path. -/
def loadJITFunction (load1 compileRes load2 : Except String Unit) : JITOutcome :=
  match load1 with
  | Except.ok _ => ⟨false, Except.ok (), 0⟩
  | Except.error _ =>
    match compileRes with
    | Except.error e => ⟨true, Except.error e, 1⟩
    | Except.ok _ =>
      match load2 with
      | Except.error e => ⟨true, Except.error e, 1⟩
      | Except.ok _ => ⟨false, Except.ok (), 1⟩

/-! ## Layout of a partially written partition buffer

During the partition loop the buffer always consists of the null region and
the non-null region (in the order dictated by `nulls_first`), each one a
filled encounter-order front followed by not-yet-written slots. -/

/-- A region of the buffer: `filled` entries written so far, padded with
unwritten slots up to `size`. -/
def region (filled : List ArrayItemIndex) (size : Nat) : List (Option ArrayItemIndex) :=
  filled.map some ++ List.replicate (size - filled.length) none

/-- The whole buffer during the partition loop: null region of size `n`
holding `A`, non-null region of size `t - n` holding `B`, ordered by the
`nulls_first` flag. -/
def layout (nullsFirst : Bool) (n t : Nat) (A B : List ArrayItemIndex) :
    List (Option ArrayItemIndex) :=
  if nullsFirst then region A n ++ region B (t - n)
  else region B (t - n) ++ region A n

/-- The number of non-null cells of a column. -/
def validsIn (cells : List Cell) : Nat := cells.countP (fun c => c.isSome)

/-- Total non-null count over the accumulated first columns. -/
def totalValids (cols : List Column) : Nat := (cols.map validsIn).sum

theorem region_length (filled : List ArrayItemIndex) (size : Nat)
    (h : filled.length ≤ size) : (region filled size).length = size := by
  simp [region]
  omega

theorem set_append_add {α : Type} (xs ys : List α) (j : Nat) (a : α) :
    (xs ++ ys).set (xs.length + j) a = xs ++ ys.set j a := by
  induction xs with
  | nil => simp
  | cons x rest ih =>
    have h : rest.length + 1 + j = (rest.length + j) + 1 := by omega
    simp only [List.cons_append, List.length_cons, h, List.set_cons_succ, ih]

theorem set_append_left {α : Type} (xs ys : List α) (j : Nat) (a : α)
    (h : j < xs.length) : (xs ++ ys).set j a = xs.set j a ++ ys := by
  induction xs generalizing j with
  | nil => simp at h
  | cons x rest ih =>
    cases j with
    | zero => simp
    | succ j' =>
      have h' : j' < rest.length := by simpa using h
      simp only [List.cons_append, List.set_cons_succ, ih j' h']

theorem region_write (filled : List ArrayItemIndex) (size : Nat)
    (x : ArrayItemIndex) (h : filled.length < size) :
    (region filled size).set filled.length (some x) = region (filled ++ [x]) size := by
  have h1 : size - filled.length = (size - (filled.length + 1)) + 1 := by omega
  have h2 : (filled.map some).length = filled.length := by simp
  calc (region filled size).set filled.length (some x)
      = (filled.map some ++ List.replicate (size - filled.length) none).set
          ((filled.map some).length + 0) (some x) := by
        simp [region, h2]
    _ = filled.map some ++
          (List.replicate (size - filled.length)
            (none : Option ArrayItemIndex)).set 0 (some x) :=
        set_append_add _ _ 0 (some x)
    _ = region (filled ++ [x]) size := by
        rw [h1]
        simp [region, List.replicate_succ]

theorem layout_write_null (nullsFirst : Bool) (n t : Nat)
    (A B : List ArrayItemIndex) (x : ArrayItemIndex)
    (hA : A.length < n) (hB : B.length ≤ t - n) :
    (layout nullsFirst n t A B).set
        (preSortNullPos nullsFirst n t A.length) (some x) =
      layout nullsFirst n t (A ++ [x]) B := by
  cases nullsFirst with
  | true =>
    have hlt : A.length < (region A n).length := by
      rw [region_length A n (Nat.le_of_lt hA)]; exact hA
    simp only [layout, preSortNullPos, eq_self_iff_true, if_true]
    rw [set_append_left _ _ _ _ hlt, region_write A n x hA]
  | false =>
    have hlen : (region B (t - n)).length = t - n := region_length B (t - n) hB
    simp only [layout, preSortNullPos, Bool.false_eq_true, if_false]
    rw [show t - n + A.length = (region B (t - n)).length + A.length by rw [hlen],
      set_append_add, region_write A n x hA]

theorem layout_write_valid (nullsFirst : Bool) (n t : Nat)
    (A B : List ArrayItemIndex) (x : ArrayItemIndex)
    (hA : A.length ≤ n) (hB : B.length < t - n) :
    (layout nullsFirst n t A B).set
        (preSortValidPos nullsFirst n B.length) (some x) =
      layout nullsFirst n t A (B ++ [x]) := by
  cases nullsFirst with
  | true =>
    have hlen : (region A n).length = n := region_length A n hA
    simp only [layout, preSortValidPos, eq_self_iff_true, if_true]
    rw [show n + B.length = (region A n).length + B.length by rw [hlen],
      set_append_add, region_write B (t - n) x hB]
  | false =>
    have hlt : B.length < (region B (t - n)).length := by
      rw [region_length B (t - n) (Nat.le_of_lt hB)]; exact hB
    simp only [layout, preSortValidPos, Bool.false_eq_true, if_false]
    rw [set_append_left _ _ _ _ hlt, region_write B (t - n) x hB]

theorem validsIn_add_nullCount (cells : List Cell) :
    validsIn cells + nullCount cells = cells.length := by
  induction cells with
  | nil => simp [validsIn, nullCount]
  | cons c rest ih =>
    cases c <;> simp [validsIn, nullCount, List.countP_cons] at ih ⊢ <;> omega

theorem totalValids_add_totalNulls (cols : List Column) :
    totalValids cols + totalNulls cols = totalItems cols := by
  induction cols with
  | nil => simp [totalValids, totalNulls, totalItems]
  | cons col rest ih =>
    have h := validsIn_add_nullCount col
    simp [totalValids, totalNulls, totalItems] at ih ⊢
    omega

theorem validIdxRows_length (arrayId : Nat) (cells : List Cell) :
    ∀ i, (validIdxRows arrayId i cells).length = validsIn cells := by
  induction cells with
  | nil => intro i; simp [validIdxRows, validsIn]
  | cons c rest ih =>
    intro i
    cases c <;> simp [validIdxRows, validsIn, List.countP_cons, ih i.succ]

theorem nullIdxRows_length (arrayId : Nat) (cells : List Cell) :
    ∀ i, (nullIdxRows arrayId i cells).length = nullCount cells := by
  induction cells with
  | nil => intro i; simp [nullIdxRows, nullCount]
  | cons c rest ih =>
    intro i
    cases c <;> simp [nullIdxRows, nullCount, List.countP_cons, ih i.succ]

theorem validIdxCols_length (cols : List Column) :
    ∀ arrayId, (validIdxCols arrayId cols).length = totalValids cols := by
  induction cols with
  | nil => intro aid; simp [validIdxCols, totalValids]
  | cons col rest ih =>
    intro aid
    have h := ih (aid + 1)
    simp [validIdxCols, totalValids, validIdxRows_length, h]

theorem nullIdxCols_length (cols : List Column) :
    ∀ arrayId, (nullIdxCols arrayId cols).length = totalNulls cols := by
  induction cols with
  | nil => intro aid; simp [nullIdxCols, totalNulls]
  | cons col rest ih =>
    intro aid
    have h := ih (aid + 1)
    simp [nullIdxCols, totalNulls, nullIdxRows_length, h]

theorem partitionRows_layout (nullsFirst : Bool) (n t arrayId : Nat)
    (cells : List Cell) :
    ∀ (i : Nat) (A B : List ArrayItemIndex),
    A.length + nullCount cells ≤ n →
    B.length + validsIn cells ≤ t - n →
    partitionRows nullsFirst n t arrayId i cells
        ⟨layout nullsFirst n t A B, B.length, A.length⟩ =
      ⟨layout nullsFirst n t (A ++ nullIdxRows arrayId i cells)
          (B ++ validIdxRows arrayId i cells),
        B.length + validsIn cells, A.length + nullCount cells⟩ := by
  induction cells with
  | nil =>
    intro i A B _ _
    simp [partitionRows, nullIdxRows, validIdxRows, nullCount, validsIn]
  | cons c rest ih =>
    intro i A B hA hB
    cases c with
    | some v =>
      have hval : validsIn (some v :: rest) = validsIn rest + 1 := by
        simp [validsIn, List.countP_cons]
      have hnul : nullCount (some v :: rest) = nullCount rest := by
        simp [nullCount, List.countP_cons]
      have hBlt : B.length < t - n := by omega
      have hAle : A.length ≤ n := by omega
      have hstep : partitionRow nullsFirst n t arrayId
          ⟨layout nullsFirst n t A B, B.length, A.length⟩ i (some v) =
          ⟨layout nullsFirst n t A
              (B ++ [({ array_id := arrayId, id := i } : ArrayItemIndex)]),
            (B ++ [({ array_id := arrayId, id := i } : ArrayItemIndex)]).length,
            A.length⟩ := by
        simp only [partitionRow, Option.isSome_some, eq_self_iff_true, if_true]
        rw [layout_write_valid nullsFirst n t A B _ hAle hBlt]
        simp
      rw [partitionRows, hstep,
        ih (i + 1) A (B ++ [({ array_id := arrayId, id := i } : ArrayItemIndex)])
          (by omega) (by simp; omega)]
      simp [nullIdxRows, validIdxRows, hval, hnul]
      omega
    | none =>
      have hval : validsIn (none :: rest) = validsIn rest := by
        simp [validsIn, List.countP_cons]
      have hnul : nullCount (none :: rest) = nullCount rest + 1 := by
        simp [nullCount, List.countP_cons]
      have hAlt : A.length < n := by omega
      have hBle : B.length ≤ t - n := by omega
      have hstep : partitionRow nullsFirst n t arrayId
          ⟨layout nullsFirst n t A B, B.length, A.length⟩ i none =
          ⟨layout nullsFirst n t
              (A ++ [({ array_id := arrayId, id := i } : ArrayItemIndex)]) B,
            B.length,
            (A ++ [({ array_id := arrayId, id := i } : ArrayItemIndex)]).length⟩ := by
        simp only [partitionRow, Option.isSome_none, Bool.false_eq_true, if_false]
        rw [layout_write_null nullsFirst n t A B _ hAlt hBle]
        simp
      rw [partitionRows, hstep,
        ih (i + 1) (A ++ [({ array_id := arrayId, id := i } : ArrayItemIndex)]) B
          (by simp; omega) (by omega)]
      simp [nullIdxRows, validIdxRows, hval, hnul]
      omega

theorem partitionBatches_layout (nullsFirst : Bool) (n t : Nat)
    (cols : List Column) :
    ∀ (arrayId : Nat) (A B : List ArrayItemIndex),
    A.length + totalNulls cols ≤ n →
    B.length + totalValids cols ≤ t - n →
    partitionBatches nullsFirst n t arrayId cols
        ⟨layout nullsFirst n t A B, B.length, A.length⟩ =
      ⟨layout nullsFirst n t (A ++ nullIdxCols arrayId cols)
          (B ++ validIdxCols arrayId cols),
        B.length + totalValids cols, A.length + totalNulls cols⟩ := by
  induction cols with
  | nil =>
    intro aid A B _ _
    simp [partitionBatches, nullIdxCols, validIdxCols, totalNulls, totalValids]
  | cons col rest ih =>
    intro aid A B hA hB
    have hnt : totalNulls (col :: rest) = nullCount col + totalNulls rest := by
      simp [totalNulls]
    have hvt : totalValids (col :: rest) = validsIn col + totalValids rest := by
      simp [totalValids]
    rw [partitionBatches,
      partitionRows_layout nullsFirst n t aid col 0 A B (by omega) (by omega)]
    have hInd : B.length + validsIn col = (B ++ validIdxRows aid 0 col).length := by
      simp [validIdxRows_length]
    have hNul : A.length + nullCount col = (A ++ nullIdxRows aid 0 col).length := by
      simp [nullIdxRows_length]
    rw [hInd, hNul,
      ih (aid + 1) (A ++ nullIdxRows aid 0 col) (B ++ validIdxRows aid 0 col)
        (by simp [nullIdxRows_length]; omega)
        (by simp [validIdxRows_length]; omega)]
    simp [nullIdxCols, validIdxCols, hnt, hvt, nullIdxRows_length,
      validIdxRows_length]
    omega

theorem layout_nil (nullsFirst : Bool) (n t : Nat) (h : n ≤ t) :
    layout nullsFirst n t [] [] = List.replicate t none := by
  have h1 : n + (t - n) = t := by omega
  have h2 : (t - n) + n = t := by omega
  cases nullsFirst <;>
    simp [layout, region, ← List.replicate_add, h1, h2]

theorem region_full (filled : List ArrayItemIndex) (size : Nat)
    (h : filled.length = size) : region filled size = filled.map some := by
  simp [region, h]

theorem totalNulls_le_totalItems (cols : List Column) :
    totalNulls cols ≤ totalItems cols := by
  have h := totalValids_add_totalNulls cols
  omega

/-- The partition phase of the generated `Finish`, characterized: provided
the state's counters are the true totals of the retained `first_` columns
(which `Evaluate` guarantees), the filled buffer is exactly the null rows
in encounter order and the non-null rows in encounter order, concatenated
in the order dictated by `nulls_first`. -/
theorem finishBuf_layout (nullsFirst : Bool) (s : SorterState)
    (hn : s.nullsTotal = totalNulls s.first)
    (ht : s.itemsTotal = totalItems s.first) :
    finishBuf nullsFirst s =
      ((if nullsFirst then nullIdxCols 0 s.first ++ validIdxCols 0 s.first
        else validIdxCols 0 s.first ++ nullIdxCols 0 s.first).map some) := by
  have hle : totalNulls s.first ≤ totalItems s.first := totalNulls_le_totalItems s.first
  have hv := totalValids_add_totalNulls s.first
  have hstart : (⟨List.replicate s.itemsTotal none, 0, 0⟩ : FinishState) =
      ⟨layout nullsFirst s.nullsTotal s.itemsTotal [] [],
        ([] : List ArrayItemIndex).length, ([] : List ArrayItemIndex).length⟩ := by
    rw [layout_nil nullsFirst s.nullsTotal s.itemsTotal (by omega)]
    simp
  rw [finishBuf, hstart,
    partitionBatches_layout nullsFirst s.nullsTotal s.itemsTotal s.first 0 [] []
      (by simp [hn]) (by simp [hn, ht]; omega)]
  have hfulln : region (nullIdxCols 0 s.first) s.nullsTotal =
      (nullIdxCols 0 s.first).map some :=
    region_full _ _ (by rw [nullIdxCols_length s.first 0, hn])
  have hfullv : region (validIdxCols 0 s.first) (s.itemsTotal - s.nullsTotal) =
      (validIdxCols 0 s.first).map some :=
    region_full _ _ (by rw [validIdxCols_length s.first 0, hn, ht]; omega)
  cases nullsFirst <;>
    simp [layout, hfulln, hfullv, List.map_append]

/-- The running counters produced by a sequence of `Evaluate` calls are the
true totals over the retained `first_` columns. -/
theorem evalAll_counts (bs : List Batch) :
    ∀ s : SorterState,
    (evalAll bs s).first = s.first ++ bs.map List.headI
    ∧ (evalAll bs s).itemsTotal = s.itemsTotal + totalItems (bs.map List.headI)
    ∧ (evalAll bs s).nullsTotal = s.nullsTotal + totalNulls (bs.map List.headI) := by
  induction bs with
  | nil => intro s; simp [evalAll, totalItems, totalNulls]
  | cons b rest ih =>
    intro s
    have h : evalAll (b :: rest) s = evalAll rest (evaluate s b) := by
      simp [evalAll]
    obtain ⟨h1, h2, h3⟩ := ih (evaluate s b)
    refine ⟨?_, ?_, ?_⟩
    · rw [h, h1]; simp [evaluate]
    · rw [h, h2]; simp [evaluate, totalItems]; omega
    · rw [h, h3]; simp [evaluate, totalNulls]; omega

/-- The full indexed pipeline from raw input batches to the partitioned
indices buffer: every batch accumulated by the generated `Evaluate`, then
the partition phase of the generated `Finish`. -/
def indexedPartitionPipeline (nullsFirst : Bool) (numCols : Nat)
    (batches : List Batch) : List (Option ArrayItemIndex) :=
  finishBuf nullsFirst (evalAll batches (initState numCols))

/-- Follows the spec's words (claim C1): the same partition loop, but
driven by each row's null-ness on the first KEY column `k0` of every
batch, instead of on schema column 0 (the source's `first_` is `in[0]`,
the first column of the output schema, regardless of the key list). -/
def indexedPartitionByFirstKey (nullsFirst : Bool) (k0 : Nat)
    (batches : List Batch) : List (Option ArrayItemIndex) :=
  finishBuf nullsFirst
    { numBatches := batches.length
      itemsTotal := totalItems (batches.map (fun b => b.getD k0 []))
      nullsTotal := totalNulls (batches.map (fun b => b.getD k0 []))
      first := batches.map (fun b => b.getD k0 [])
      cached := [] }

theorem getSortFunction_lo (asc nullsFirst : Bool) (numKeys n t : Nat) :
    (getSortFunction asc nullsFirst numKeys n t).lo = if nullsFirst then n else 0 := by
  cases asc <;> cases nullsFirst <;> by_cases h : numKeys = 1 <;>
    simp [getSortFunction, h]

theorem getSortFunction_hi (asc nullsFirst : Bool) (numKeys n t : Nat) :
    (getSortFunction asc nullsFirst numKeys n t).hi =
      if nullsFirst then t else t - n := by
  cases asc <;> cases nullsFirst <;> by_cases h : numKeys = 1 <;>
    simp [getSortFunction, h]

theorem getSortFunction_algo (asc nullsFirst : Bool) (numKeys n t : Nat) :
    (getSortFunction asc nullsFirst numKeys n t).algo = SortAlgo.skaSort ↔
      (asc = true ∧ numKeys = 1) := by
  cases asc <;> cases nullsFirst <;> by_cases h : numKeys = 1 <;>
    simp [getSortFunction, h]

theorem getSortFunctionInplace_spec (asc nullsFirst : Bool) (n t : Nat) :
    ((getSortFunctionInplace asc nullsFirst n t).algo = SortAlgo.skaSort ↔ asc = true)
    ∧ (getSortFunctionInplace asc nullsFirst n t).lo = (if nullsFirst then n else 0)
    ∧ (getSortFunctionInplace asc nullsFirst n t).hi = (if nullsFirst then t else t - n) := by
  cases asc <;> cases nullsFirst <;> simp [getSortFunctionInplace]

/-! ## Lexicographic reading of the generated comparator -/

theorem lex_nil_nil {r : Int → Int → Prop} : ¬ List.Lex r [] [] := by
  intro h
  cases h

theorem lex_singleton (r : Int → Int → Prop) (a b : Int) :
    List.Lex r [a] [b] ↔ r a b := by
  constructor
  · intro h
    cases h with
    | cons h' => exact absurd h' lex_nil_nil
    | rel h' => exact h'
  · intro h
    exact List.Lex.rel h

theorem lex_cons_same (r : Int → Int → Prop) (hirr : ∀ z : Int, ¬ r z z)
    (a : Int) (l1 l2 : List Int) :
    List.Lex r (a :: l1) (a :: l2) ↔ List.Lex r l1 l2 := by
  constructor
  · intro h
    cases h with
    | cons h' => exact h'
    | rel h' => exact absurd h' (hirr a)
  · exact List.Lex.cons

theorem lex_cons_of_ne (r : Int → Int → Prop) {a b : Int} (h : a ≠ b)
    (l1 l2 : List Int) : List.Lex r (a :: l1) (b :: l2) ↔ r a b := by
  constructor
  · intro hx
    cases hx with
    | cons h' => exact absurd rfl h
    | rel h' => exact h'
  · intro hr
    exact List.Lex.rel hr

theorem strictOp_irrefl (asc : Bool) (z : Int) : ¬ strictOp asc z z = true := by
  cases asc <;> simp [strictOp]

theorem genComp_eq_lex (asc : Bool) (keys : List Nat) (x y : Nat → Int)
    (hne : keys ≠ []) :
    genComp asc keys x y = true ↔
      List.Lex (fun a b : Int => strictOp asc a b = true)
        (keys.map x) (keys.map y) := by
  induction keys with
  | nil => exact absurd rfl hne
  | cons k rest ih =>
    cases rest with
    | nil =>
      simp only [genComp, List.map]
      exact (lex_singleton (fun a b : Int => strictOp asc a b = true)
        (x k) (y k)).symm
    | cons k2 r2 =>
      by_cases heq : x k = y k
      · have hrec := ih (by simp)
        simp only [genComp, if_pos heq, List.map, heq]
        rw [lex_cons_same (fun a b : Int => strictOp asc a b = true)
          (strictOp_irrefl asc) (y k)]
        exact hrec
      · simp only [genComp, if_neg heq, List.map]
        exact (lex_cons_of_ne (fun a b : Int => strictOp asc a b = true)
          heq _ _).symm

theorem genComp_refl_false (asc : Bool) (keys : List Nat) (x y : Nat → Int)
    (h : keys.map x = keys.map y) : genComp asc keys x y = false := by
  induction keys with
  | nil => simp [genComp]
  | cons k rest ih =>
    have hk : x k = y k := by simpa using congrArg (fun l => l.headI) h
    have ht : rest.map x = rest.map y := by
      simpa using congrArg (fun l => l.tail) h
    cases rest with
    | nil =>
      simp only [genComp, hk]
      cases asc <;> simp [strictOp]
    | cons k2 r2 =>
      simp only [genComp, if_pos hk]
      exact ih ht

/-! ## Injectivity of the key section of the signature descriptor -/

theorem brfree_split (a1 : List Char) :
    ∀ (a2 b1 b2 : List Char), '[' ∉ a1 → '[' ∉ a2 →
    (b1 = [] ∨ ∃ t1, b1 = '[' :: t1) → (b2 = [] ∨ ∃ t2, b2 = '[' :: t2) →
    a1 ++ b1 = a2 ++ b2 → a1 = a2 ∧ b1 = b2 := by
  induction a1 with
  | nil =>
    intro a2 b1 b2 h1 h2 hb1 hb2 heq
    cases a2 with
    | nil => exact ⟨rfl, by simpa using heq⟩
    | cons c a2' =>
      rcases hb1 with hb1 | ⟨t1, rfl⟩
      · subst hb1
        exact absurd heq.symm (by simp)
      · have hc : '[' = c := by simpa using congrArg (fun l => l.headI) heq
        exact absurd (hc ▸ List.mem_cons_self c a2') h2
  | cons c a1' ih =>
    intro a2 b1 b2 h1 h2 hb1 hb2 heq
    cases a2 with
    | nil =>
      rcases hb2 with hb2 | ⟨t2, rfl⟩
      · subst hb2
        exact absurd heq (by simp)
      · have hc : c = '[' := by simpa using congrArg (fun l => l.headI) heq
        exact absurd (hc ▸ List.mem_cons_self c a1') h1
    | cons d a2' =>
      have hc : c = d := by simpa using congrArg (fun l => l.headI) heq
      have htl : a1' ++ b1 = a2' ++ b2 := by
        simpa [hc] using congrArg (fun l => l.tail) heq
      have h1' : '[' ∉ a1' := fun hm => h1 (List.mem_cons_of_mem c hm)
      have h2' : '[' ∉ a2' := fun hm => h2 (List.mem_cons_of_mem d hm)
      obtain ⟨ha, hb⟩ := ih a2' b1 b2 h1' h2' hb1 hb2 htl
      exact ⟨by rw [hc, ha], hb⟩

theorem keysDescriptor_marker (kf : List (List Char)) :
    keysDescriptor kf = [] ∨ ∃ t, keysDescriptor kf = '[' :: t := by
  cases kf with
  | nil => exact Or.inl rfl
  | cons f rest =>
    right
    refine ⟨"sort_key_0]".toList ++ f ++ keysDescriptor rest, ?_⟩
    simp [keysDescriptor, sortKeyMarker]

theorem keysDescriptor_inj (kf1 : List (List Char)) :
    ∀ kf2, (∀ f ∈ kf1, '[' ∉ f) → (∀ f ∈ kf2, '[' ∉ f) →
    keysDescriptor kf1 = keysDescriptor kf2 → kf1 = kf2 := by
  induction kf1 with
  | nil =>
    intro kf2 _ _ heq
    cases kf2 with
    | nil => rfl
    | cons f rest => simp [keysDescriptor, sortKeyMarker] at heq
  | cons f1 rest1 ih =>
    intro kf2 h1 h2 heq
    cases kf2 with
    | nil => simp [keysDescriptor, sortKeyMarker] at heq
    | cons f2 rest2 =>
      have heq' : f1 ++ keysDescriptor rest1 = f2 ++ keysDescriptor rest2 := by
        have h := heq
        simp only [keysDescriptor, List.append_assoc] at h
        exact List.append_cancel_left h
      obtain ⟨hf, hK⟩ := brfree_split f1 f2 (keysDescriptor rest1)
        (keysDescriptor rest2)
        (h1 f1 (List.mem_cons_self f1 rest1)) (h2 f2 (List.mem_cons_self f2 rest2))
        (keysDescriptor_marker rest1) (keysDescriptor_marker rest2) heq'
      have hrest := ih rest2
        (fun f hm => h1 f (List.mem_cons_of_mem f1 hm))
        (fun f hm => h2 f (List.mem_cons_of_mem f2 hm)) hK
      rw [hf, hrest]

/-! # Settled claims -/

/-- Claim C3 (confirmed).  For every kernel-build request, the factory
(`SortArraysToIndicesKernel`'s constructor) selects the in-place variant
if and only if the key list has exactly one key and the output schema has
exactly one column; in every other case it selects the indexed variant. -/
theorem c3_factory_dispatch (numKeyFields numSchemaFields : Nat) :
    (selectKernel numKeyFields numSchemaFields = KernelVariant.inplace ↔
      (numKeyFields = 1 ∧ numSchemaFields = 1))
    ∧ (selectKernel numKeyFields numSchemaFields = KernelVariant.indexed ↔
      ¬(numKeyFields = 1 ∧ numSchemaFields = 1)) := by
  by_cases h : numKeyFields = 1 ∧ numSchemaFields = 1 <;> simp [selectKernel, h]

/-- Claim C5, counterexample.  `GetSortFunction` takes no key-type input at
all: for a single ascending key it emits `ska_sort` whatever the key type,
so at the configuration (ascending, one key, non-numeric key) the code
picks the radix sort while the spec's stated rule ("a single ascending
NUMERIC primary key ... every other configuration (…, non-numeric types)
uses a general comparison sort") demands the comparison sort. -/
theorem c5_counterexample_nonnumeric_key :
    (getSortFunction true true 1 0 10).algo = SortAlgo.skaSort
    ∧ specSortAlgo true 1 false = SortAlgo.stdSortComp := ⟨rfl, rfl⟩

/-- Claim C5 (amended).  The generated sort step is the radix `ska_sort`
exactly when the configuration is ascending with a single key — with no
dependence on the key's type — and `std::sort` with the composite
comparator otherwise; the in-place variant (always single-key) picks
`ska_sort` exactly when ascending.  Both are applied to exactly the
non-null region: `[nulls_total_, items_total_)` for nulls-first,
`[0, items_total_ - nulls_total_)` for nulls-last. -/
theorem c5_sort_selection (asc nullsFirst : Bool)
    (numKeys nullsTotal itemsTotal : Nat) :
    ((getSortFunction asc nullsFirst numKeys nullsTotal itemsTotal).algo =
        SortAlgo.skaSort ↔ (asc = true ∧ numKeys = 1))
    ∧ (getSortFunction asc nullsFirst numKeys nullsTotal itemsTotal).lo =
        (if nullsFirst then nullsTotal else 0)
    ∧ (getSortFunction asc nullsFirst numKeys nullsTotal itemsTotal).hi =
        (if nullsFirst then itemsTotal else itemsTotal - nullsTotal)
    ∧ ((getSortFunctionInplace asc nullsFirst nullsTotal itemsTotal).algo =
        SortAlgo.skaSort ↔ asc = true)
    ∧ (getSortFunctionInplace asc nullsFirst nullsTotal itemsTotal).lo =
        (if nullsFirst then nullsTotal else 0)
    ∧ (getSortFunctionInplace asc nullsFirst nullsTotal itemsTotal).hi =
        (if nullsFirst then itemsTotal else itemsTotal - nullsTotal) :=
  ⟨getSortFunction_algo asc nullsFirst numKeys nullsTotal itemsTotal,
    getSortFunction_lo asc nullsFirst numKeys nullsTotal itemsTotal,
    getSortFunction_hi asc nullsFirst numKeys nullsTotal itemsTotal,
    (getSortFunctionInplace_spec asc nullsFirst nullsTotal itemsTotal).1,
    (getSortFunctionInplace_spec asc nullsFirst nullsTotal itemsTotal).2.1,
    (getSortFunctionInplace_spec asc nullsFirst nullsTotal itemsTotal).2.2⟩

/-- Claim C7 (code bug).  When the initial `LoadLibrary` misses and
`CompileCodes` fails, `LoadJITFunction` surfaces the compile error
unretried — exactly one compile attempt — but returns with the file spin
lock STILL HELD: `RETURN_NOT_OK` early-returns past
`FileSpinUnLock(file_lock)`, which only runs on the success paths (second
conjunct: the cached-load success path does release the lock). -/
theorem c7_lock_leaked_on_compile_failure :
    loadJITFunction (Except.error "cache miss")
        (Except.error "compiler invocation failed") (Except.ok ()) =
      ⟨true, Except.error "compiler invocation failed", 1⟩
    ∧ loadJITFunction (Except.ok ()) (Except.ok ()) (Except.ok ()) =
      ⟨false, Except.ok (), 0⟩ := ⟨rfl, rfl⟩

/-- Claim C2 (code bug).  In-place iterator over `items_total_ = 2` rows
with `nulls_total_ = 1` — the state after one `Evaluate` of the
single-column batch `[5, null]`.  The first `Next` call computes a
positive `length`, but because the `AppendNull()` branch of the
materialization loop does not increment `count`, the loop counter stays at
0 under arbitrarily many iterations of the loop body, so the guard
`count < length` never turns false: this `Next` call neither terminates
nor advances the cursor, for every positive batch capacity. -/
theorem c2_inplace_next_never_terminates (cap k : Nat) :
    inplaceMakeResultIterator
        (inplaceEvaluate inplaceInit [[some 5, none]]) = Except.ok (1, 2)
    ∧ 0 < nextLength (cap + 1) 2 0
    ∧ (fun c => inplaceNextCountStep 1 0 (nextLength (cap + 1) 2 0) c)^[k] 0 = 0 := by
  have hstep : ∀ L c, 0 < L → c = 0 → inplaceNextCountStep 1 0 L c = 0 := by
    intro L c hL hc
    subst hc
    simp [inplaceNextCountStep, hL]
  have hpos : 0 < nextLength (cap + 1) 2 0 := by
    unfold nextLength
    split <;> omega
  refine ⟨rfl, hpos, ?_⟩
  induction k with
  | zero => rfl
  | succ k' ihk =>
    rw [Function.iterate_succ_apply']
    exact hstep _ _ hpos ihk

/-- Claim C9, counterexample.  Calling the in-place kernel's
`MakeResultIterator` before any `Evaluate` does not yield an empty result:
`cached_0_` is empty and `arrow::Concatenate` of an empty array vector
fails, so the call surfaces that error instead of constructing an
iterator. -/
theorem c9_counterexample_inplace_empty :
    inplaceMakeResultIterator inplaceInit =
      Except.error "Must pass at least one array" := rfl

/-- Claim C9 (amended).  A terminal operation before any `Evaluate` is
empty-friendly only in the indexed variant: its `Finish` partition yields
a zero-length indices buffer and the iterator's `HasNext()` is false from
the start and on every later offset; the in-place variant's
`MakeResultIterator` instead fails with the `Concatenate` error. -/
theorem c9_empty_terminal_semantics (nullsFirst : Bool) (numCols : Nat) :
    finishBuf nullsFirst (initState numCols) = []
    ∧ (∀ offset, hasNextIter (initState numCols).itemsTotal offset = false)
    ∧ inplaceMakeResultIterator inplaceInit =
      Except.error "Must pass at least one array" := by
  refine ⟨rfl, ?_, rfl⟩
  intro offset
  simp [hasNextIter, initState]

/-- Claim C10 (confirmed).  The signature descriptor built by
`LoadJITFunction` reads only the ordering flags, the ordered key list and
the schema — never the batch-size constant: two configurations that
differ only in batch size map to the identical descriptor (hence the
identical signature and cached artifact), even though the generated
`Next` embeds the constant as a literal and advances its cursor
differently once the constants differ. -/
theorem c10_signature_ignores_batch_size (s1 s2 : SortSpec)
    (hnf : s1.nullsFirst = s2.nullsFirst) (hasc : s1.asc = s2.asc)
    (hkf : s1.keyFields = s2.keyFields) (hsch : s1.schemaStr = s2.schemaStr) :
    buildDescriptor s1 = buildDescriptor s2
    ∧ (s1.batchSize ≠ s2.batchSize →
        ∃ totalLength offset,
          nextLength s1.batchSize totalLength offset ≠
            nextLength s2.batchSize totalLength offset) := by
  constructor
  · unfold buildDescriptor
    rw [hnf, hasc, hkf, hsch]
  · intro hb
    refine ⟨s1.batchSize + s2.batchSize, 0, ?_⟩
    have h1 : nextLength s1.batchSize (s1.batchSize + s2.batchSize) 0 =
        s1.batchSize := by
      unfold nextLength
      split <;> omega
    have h2 : nextLength s2.batchSize (s1.batchSize + s2.batchSize) 0 =
        s2.batchSize := by
      unfold nextLength
      split <;> omega
    rw [h1, h2]
    exact hb

/-- Witness for C10 at a concrete pair of configurations differing only in
the batch-size constant (1 versus 2). -/
theorem c10_signature_ignores_batch_size_witness :
    buildDescriptor ⟨true, true, [['a']], ['s'], 1⟩ =
      buildDescriptor ⟨true, true, [['a']], ['s'], 2⟩
    ∧ ((1 : Nat) ≠ 2 →
        ∃ totalLength offset,
          nextLength 1 totalLength offset ≠ nextLength 2 totalLength offset) :=
  c10_signature_ignores_batch_size ⟨true, true, [['a']], ['s'], 1⟩
    ⟨true, true, [['a']], ['s'], 2⟩ rfl rfl rfl rfl

theorem lex_mono (r r' : Int → Int → Prop) (h : ∀ a b, r a b → r' a b) :
    ∀ l1 l2 : List Int, List.Lex r l1 l2 → List.Lex r' l1 l2 := by
  intro l1 l2 hx
  induction hx with
  | nil => exact List.Lex.nil
  | cons _ ih => exact List.Lex.cons ih
  | rel hr => exact List.Lex.rel (h _ _ hr)

/-- Claim C4 (confirmed).  For a key list `[k0, …, kn]` the generated
composite comparator compares `k0` first, recurses into the remaining-keys
comparator on equality, and at the last key returns the bare strict
inequality of the configured direction, with no further tie-break: as one
statement, the comparator decides exactly the strict lexicographic order
on the key tuples — `<` pointwise when ascending, `>` pointwise when
descending — and returns false on fully equal key tuples. -/
theorem c4_comparator_lexicographic (keys : List Nat) (x y : Nat → Int)
    (asc : Bool) (hne : keys ≠ []) :
    (genComp true keys x y = true ↔
      List.Lex (fun a b : Int => a < b) (keys.map x) (keys.map y))
    ∧ (genComp false keys x y = true ↔
      List.Lex (fun a b : Int => b < a) (keys.map x) (keys.map y))
    ∧ (keys.map x = keys.map y → genComp asc keys x y = false) := by
  refine ⟨?_, ?_, genComp_refl_false asc keys x y⟩
  · rw [genComp_eq_lex true keys x y hne]
    constructor
    · exact lex_mono _ _ (fun a b hab => by simpa [strictOp] using hab) _ _
    · exact lex_mono _ _ (fun a b hab => by simpa [strictOp] using hab) _ _
  · rw [genComp_eq_lex false keys x y hne]
    constructor
    · exact lex_mono _ _ (fun a b hab => by simpa [strictOp] using hab) _ _
    · exact lex_mono _ _ (fun a b hab => by simpa [strictOp] using hab) _ _

/-- Witness for C4 at the two-key list `[0, 1]` and constant rows 2 and 3. -/
theorem c4_comparator_lexicographic_witness :
    (([0, 1] : List Nat) ≠ [])
    ∧ (genComp true [0, 1] (fun _ => (2 : Int)) (fun _ => (3 : Int)) = true ↔
        List.Lex (fun a b : Int => a < b)
          (([0, 1] : List Nat).map (fun _ => (2 : Int)))
          (([0, 1] : List Nat).map (fun _ => (3 : Int)))) :=
  ⟨by decide,
    (c4_comparator_lexicographic [0, 1] (fun _ => (2 : Int)) (fun _ => (3 : Int))
      true (by decide)).1⟩

/-- Claim C6, counterexample.  "Any permutation of the key-column order
yields a different signature" fails on a valid SortSpec with a duplicated
key: for the key list `[a, a]` the transposition of the two key positions
(realized as `List.reverse`) is a permutation of the key-column order, yet
it produces the same ordered key list and therefore the identical
descriptor and signature. -/
theorem c6_counterexample_duplicate_keys :
    List.Perm ([['a'], ['a']] : List (List Char))
      ([['a'], ['a']] : List (List Char)).reverse
    ∧ buildDescriptor
        ⟨true, true, ([['a'], ['a']] : List (List Char)).reverse, ['s'], 10⟩ =
      buildDescriptor ⟨true, true, [['a'], ['a']], ['s'], 10⟩ :=
  ⟨(List.reverse_perm _).symm, rfl⟩

/-- Claim C6 (amended).  The descriptor (and hence the signature, which is
a fixed pure hash of it) is a pure function of the ordering flags, the
ordered key list and the schema: structurally equal SortSpecs map to the
same descriptor.  A permutation of the key-column order that actually
changes the ordered key list changes the descriptor, provided no
key-field rendering contains the marker character `[` (a field name
containing `[sort_key_0]` could forge the separator and collide);
inequality is stated at the descriptor (pre-hash) level. -/
theorem c6_descriptor_pure_and_order_sensitive (s1 s2 : SortSpec)
    (hnf : s1.nullsFirst = s2.nullsFirst) (hasc : s1.asc = s2.asc)
    (hsch : s1.schemaStr = s2.schemaStr) :
    (s1.keyFields = s2.keyFields → buildDescriptor s1 = buildDescriptor s2)
    ∧ (List.Perm s1.keyFields s2.keyFields → s1.keyFields ≠ s2.keyFields →
        (∀ f ∈ s1.keyFields, '[' ∉ f) →
        buildDescriptor s1 ≠ buildDescriptor s2) := by
  constructor
  · intro hkf
    unfold buildDescriptor
    rw [hnf, hasc, hkf, hsch]
  · intro hperm hne hbr heq
    apply hne
    unfold buildDescriptor at heq
    rw [hnf, hasc, hsch] at heq
    simp only [List.append_assoc] at heq
    have h1 := List.append_cancel_left heq
    have h2 := List.append_cancel_left h1
    have h3 := List.append_cancel_left h2
    have h4 := List.append_cancel_left h3
    have hK : keysDescriptor s1.keyFields = keysDescriptor s2.keyFields :=
      List.append_cancel_right h4
    exact keysDescriptor_inj s1.keyFields s2.keyFields hbr
      (fun f hm => hbr f (hperm.mem_iff.mpr hm)) hK

/-- Witness for C6 at the concrete pair of specs whose key lists are the
two orderings of the distinct marker-free keys `a` and `b`. -/
theorem c6_descriptor_order_sensitive_witness :
    List.Perm ([['a'], ['b']] : List (List Char)) [['b'], ['a']]
    ∧ ([['a'], ['b']] : List (List Char)) ≠ [['b'], ['a']]
    ∧ (∀ f ∈ ([['a'], ['b']] : List (List Char)), '[' ∉ f)
    ∧ buildDescriptor ⟨true, true, [['a'], ['b']], ['s'], 10⟩ ≠
        buildDescriptor ⟨true, true, [['b'], ['a']], ['s'], 10⟩ :=
  ⟨List.Perm.swap ['b'] ['a'] [], by decide, by decide,
    (c6_descriptor_pure_and_order_sensitive
      ⟨true, true, [['a'], ['b']], ['s'], 10⟩
      ⟨true, true, [['b'], ['a']], ['s'], 10⟩ rfl rfl rfl).2
      (List.Perm.swap ['b'] ['a'] []) (by decide) (by decide)⟩

/-- Claim C8, counterexample.  For a batch whose two parallel arrays have
row counts 2 and 1, the claim (spec §7, error kind 5) demands an
immediately surfaced error, but the generated `Evaluate` performs no
row-count check and accepts the batch with status OK. -/
theorem c8_counterexample_mismatch_accepted :
    evaluateStatusSpec (initState 2) [[some 1, some 2], [some 3]] =
      Except.error "row-count mismatch between parallel input arrays"
    ∧ evaluateStatus (initState 2) [[some 1, some 2], [some 3]] =
      Except.ok (evaluate (initState 2) [[some 1, some 2], [some 3]]) :=
  ⟨rfl, rfl⟩

/-- Claim C8 (amended).  `Evaluate` performs no row-count validation: a
batch with parallel arrays of unequal row counts is accepted and the call
returns OK; the running counters advance by `in[0]`'s length and null
count, the retained batches grow by `in[0]`, and every previously
accumulated column array is preserved in place with only the new batch's
array appended after it. -/
theorem c8_no_rowcount_validation (s : SorterState) (b : Batch)
    (_hmis : ∃ c1 ∈ b, ∃ c2 ∈ b, c1.length ≠ c2.length) :
    evaluateStatus s b = Except.ok (evaluate s b)
    ∧ (evaluate s b).first = s.first ++ [b.headI]
    ∧ (evaluate s b).itemsTotal = s.itemsTotal + b.headI.length
    ∧ (evaluate s b).nullsTotal = s.nullsTotal + nullCount b.headI
    ∧ ∀ j, j < (evaluate s b).cached.length →
        (evaluate s b).cached.getD j [] = s.cached.getD j [] ++ [b.getD j []] := by
  refine ⟨rfl, rfl, rfl, rfl, ?_⟩
  intro j hj
  have hj' : j < min s.cached.length b.length := by
    simpa [evaluate, List.length_zipWith] using hj
  have hjc : j < s.cached.length := lt_of_lt_of_le hj' (min_le_left _ _)
  have hjb : j < b.length := lt_of_lt_of_le hj' (min_le_right _ _)
  have hjz : j < (List.zipWith (fun cv c => cv ++ [c]) s.cached b).length := by
    simpa [List.length_zipWith] using hj'
  rw [show (evaluate s b).cached = List.zipWith (fun cv c => cv ++ [c]) s.cached b
      from rfl,
    List.getD_eq_getElem _ _ hjz, List.getD_eq_getElem _ _ hjc,
    List.getD_eq_getElem _ _ hjb, List.getElem_zipWith]

/-- Witness for C8 at the concrete mismatched batch of row counts 2 and 1. -/
theorem c8_no_rowcount_validation_witness :
    (∃ c1 ∈ ([[some 1, some 2], [some 3]] : Batch),
      ∃ c2 ∈ ([[some 1, some 2], [some 3]] : Batch), c1.length ≠ c2.length)
    ∧ evaluateStatus (initState 2) [[some 1, some 2], [some 3]] =
        Except.ok (evaluate (initState 2) [[some 1, some 2], [some 3]]) :=
  ⟨by decide,
    (c8_no_rowcount_validation (initState 2) [[some 1, some 2], [some 3]]
      (by decide)).1⟩

/-- The sorted-region and null-region slices of the partition buffer, for
any state whose counters are the true totals over its `first_` columns. -/
theorem finishBuf_regions (nullsFirst : Bool) (s : SorterState)
    (hn : s.nullsTotal = totalNulls s.first)
    (ht : s.itemsTotal = totalItems s.first) :
    (∀ asc numKeys,
      ((finishBuf nullsFirst s).take
          (getSortFunction asc nullsFirst numKeys s.nullsTotal s.itemsTotal).hi).drop
        (getSortFunction asc nullsFirst numKeys s.nullsTotal s.itemsTotal).lo =
        (validIdxCols 0 s.first).map some)
    ∧ (if nullsFirst then (finishBuf nullsFirst s).take s.nullsTotal
        else (finishBuf nullsFirst s).drop (s.itemsTotal - s.nullsTotal)) =
        (nullIdxCols 0 s.first).map some := by
  have hmain := finishBuf_layout nullsFirst s hn ht
  have hvn := totalValids_add_totalNulls s.first
  have hNlen : ((nullIdxCols 0 s.first).map some).length = s.nullsTotal := by
    simp [nullIdxCols_length, hn]
  have hVlen : ((validIdxCols 0 s.first).map some).length =
      s.itemsTotal - s.nullsTotal := by
    simp [validIdxCols_length, hn, ht]
    omega
  cases nullsFirst with
  | true =>
    simp only [if_true, eq_self_iff_true, List.map_append] at hmain
    have hlen : ((nullIdxCols 0 s.first).map some ++
        (validIdxCols 0 s.first).map some).length = s.itemsTotal := by
      rw [List.length_append, hNlen, hVlen]
      have := totalNulls_le_totalItems s.first
      omega
    constructor
    · intro asc numKeys
      rw [getSortFunction_lo, getSortFunction_hi]
      simp only [if_true, eq_self_iff_true]
      rw [hmain, ← hlen, List.take_length, ← hNlen, List.drop_left]
    · simp only [eq_self_iff_true, if_true]
      rw [hmain, ← hNlen, List.take_left]
  | false =>
    simp only [Bool.false_eq_true, if_false, List.map_append] at hmain
    constructor
    · intro asc numKeys
      rw [getSortFunction_lo, getSortFunction_hi]
      simp only [Bool.false_eq_true, if_false]
      rw [hmain, List.drop_zero, ← hVlen, List.take_left]
    · simp only [Bool.false_eq_true, if_false]
      rw [hmain, ← hVlen, List.drop_left]

/-- Claim C1, counterexample.  The partition tests null-ness on
`first_ = in[0]`, schema column 0, not on the first key column.  Concrete
input: one batch, schema column 0 = `[null, 1]`, schema column 1 =
`[5, null]`, key list `[1]` (first key = schema column 1), nulls-first.
The code places row 0 in the null region and row 1 after it, while a
partition by the first key column's null-ness (the claim's words) places
row 1 in the null region and row 0 after it: the buffers differ. -/
theorem c1_counterexample_first_key_partition :
    indexedPartitionPipeline true 2 [[[none, some 1], [some 5, none]]] ≠
      indexedPartitionByFirstKey true 1 [[[none, some 1], [some 5, none]]] := by
  decide

/-- Claim C1 (amended).  For every accumulated input, the partition phase
of the generated `Finish` splits the working index array by each row's
null-ness on the first OUTPUT-SCHEMA column (`first_`, i.e. `in[0]`; this
is the first key column only when that key is schema column 0): with
`nulls_first = true` the null region is at the start and otherwise at the
end, both regions keep encounter order (the partition is stable), and the
index range handed to the sort step by `GetSortFunction` is exactly the
non-null region. -/
theorem c1_partition_stable (nullsFirst : Bool) (numCols : Nat)
    (batches : List Batch) :
    indexedPartitionPipeline nullsFirst numCols batches =
      ((if nullsFirst
        then nullIdxCols 0 (batches.map List.headI) ++
          validIdxCols 0 (batches.map List.headI)
        else validIdxCols 0 (batches.map List.headI) ++
          nullIdxCols 0 (batches.map List.headI)).map some)
    ∧ (∀ asc numKeys,
        ((indexedPartitionPipeline nullsFirst numCols batches).take
            (getSortFunction asc nullsFirst numKeys
              (totalNulls (batches.map List.headI))
              (totalItems (batches.map List.headI))).hi).drop
          (getSortFunction asc nullsFirst numKeys
            (totalNulls (batches.map List.headI))
            (totalItems (batches.map List.headI))).lo =
          (validIdxCols 0 (batches.map List.headI)).map some)
    ∧ (if nullsFirst
        then (indexedPartitionPipeline nullsFirst numCols batches).take
          (totalNulls (batches.map List.headI))
        else (indexedPartitionPipeline nullsFirst numCols batches).drop
          (totalItems (batches.map List.headI) -
            totalNulls (batches.map List.headI))) =
        (nullIdxCols 0 (batches.map List.headI)).map some := by
  obtain ⟨hf, hi, hnl⟩ := evalAll_counts batches (initState numCols)
  have hfirst : (evalAll batches (initState numCols)).first =
      batches.map List.headI := by simpa [initState] using hf
  have hitems : (evalAll batches (initState numCols)).itemsTotal =
      totalItems (batches.map List.headI) := by simpa [initState] using hi
  have hnulls : (evalAll batches (initState numCols)).nullsTotal =
      totalNulls (batches.map List.headI) := by simpa [initState] using hnl
  obtain ⟨hreg, hnullreg⟩ := finishBuf_regions nullsFirst
    (evalAll batches (initState numCols)) (by rw [hnulls, hfirst])
    (by rw [hitems, hfirst])
  refine ⟨?_, ?_, ?_⟩
  · rw [indexedPartitionPipeline,
      finishBuf_layout nullsFirst _ (by rw [hnulls, hfirst])
        (by rw [hitems, hfirst]), hfirst]
  · intro asc numKeys
    have h := hreg asc numKeys
    rw [hnulls, hitems, hfirst] at h
    simpa [indexedPartitionPipeline] using h
  · rw [hnulls, hitems, hfirst] at hnullreg
    simpa [indexedPartitionPipeline] using hnullreg

end SortKernel
